import Mathlib

/-!
Verification development for the yhdl sync/download service.

The definitions in this file are shallow embeddings of the TypeScript
sources of the repository:

* `decryptChunk`, `generateStreamPath`, `generateCryptedStreamURL`
  embed `src/services/yhdl/src/downloader/types.ts` (crypto section);
* `decrypter` embeds the async generator of the same name in
  `src/services/yhdl/src/downloader/decryption.ts`;
* `streamTrack` retry logic embeds `decryption.ts`;
* `api_call` embeds the gateway client (`GW.api_call`);
* `processArtistsBatch`, the per-release body of `syncLibrary`, and the
  state helpers (`updateArtistCheck`, `shouldSkipArtist`, ...) embed
  `src/services/yhdl/src/sync/sync.ts` and the state module;
* `sanitizeFilename` / `sanitizeFolderName` embed the filename
  sanitizers of the downloader and folder resolver.

External library primitives (MD5, AES-128-ECB, the Blowfish block
function, `Date` parsing) are not part of the repository; they are taken
as function parameters of the embeddings.
-/

namespace Yhsrv

/-- A byte is modelled as a natural number (bytes are 0..255 in the
source; the proofs only use xor algebra, which needs no bound). -/
abbrev Byte := Nat

/-- Byte-wise xor of two buffers (`zipWith` truncates to the shorter
operand; all uses are on equal-length 8-byte blocks). -/
def xorBytes (a b : List Byte) : List Byte := List.zipWith (fun x y => x ^^^ y) a b

/-- Split a buffer into consecutive `n`-byte blocks (the last block may be
short when `n` does not divide the length). -/
def chunkExact (n : Nat) (l : List Byte) : List (List Byte) :=
  if _h : l = [] ∨ n = 0 then [] else
    l.take n :: chunkExact n (l.drop n)
termination_by l.length
decreasing_by
  push_neg at _h
  simp only [List.length_drop]
  exact Nat.sub_lt (List.length_pos.mpr _h.1) (Nat.pos_of_ne_zero _h.2)

/-- CBC-mode encryption over a list of plaintext blocks, chaining each
ciphertext block into the next, starting from `iv`.  `E` is the block
cipher's forward direction. -/
def cbcEncryptBlocks (E : List Byte → List Byte) : List Byte → List (List Byte) → List (List Byte)
  | _, [] => []
  | iv, p :: ps => E (xorBytes iv p) :: cbcEncryptBlocks E (E (xorBytes iv p)) ps

/-- CBC-mode decryption over a list of ciphertext blocks.  `D` is the block
cipher's inverse direction. -/
def cbcDecryptBlocks (D : List Byte → List Byte) : List Byte → List (List Byte) → List (List Byte)
  | _, [] => []
  | iv, c :: cs => xorBytes iv (D c) :: cbcDecryptBlocks D c cs

/-- The fixed 8-byte IV `Buffer.from([0, 1, 2, 3, 4, 5, 6, 7])` used by
`decryptChunk` in downloader/types.ts. -/
def bfIV : List Byte := [0, 1, 2, 3, 4, 5, 6, 7]

/-- `decryptChunk` from downloader/types.ts: Blowfish-CBC decryption of a
buffer with the fixed IV 0..7 and no padding ("bf-cbc" with
`setAutoPadding(false)`, or the equivalent JS Blowfish fallback).  The
8-byte Blowfish block decryption itself is a library primitive and is
abstracted as the parameter `D`. -/
def decryptChunk (D : List Byte → List Byte) (chunk : List Byte) : List Byte :=
  (cbcDecryptBlocks D bfIV (chunkExact 8 chunk)).flatten

/-- Blowfish-CBC encryption of a buffer under the same fixed IV — the
"matching scheme" of the round-trip property; `E` is the block cipher's
forward direction. -/
def encryptChunk (E : List Byte → List Byte) (p : List Byte) : List Byte :=
  (cbcEncryptBlocks E bfIV (chunkExact 8 p)).flatten

/-- One run of the `while (modifiedStream.length >= 2048 * 3)` loop inside
`decrypter` (decryption.ts lines 85-94): per iteration, take the first
6144-byte super-block (`2048 * 3 = 6144`) off the buffer and emit the
decryption of its first 2048 bytes followed by its remaining 4096 bytes;
return the emitted buffers and the remaining (shorter than 6144) buffer. -/
def decrypterLoop (dc : List Byte → List Byte) (buf : List Byte) :
    List (List Byte) × List Byte :=
  if _h : 6144 ≤ buf.length then
    ((dc ((buf.take 6144).take 2048) ++ (buf.take 6144).drop 2048)
        :: (decrypterLoop dc (buf.drop 6144)).1,
     (decrypterLoop dc (buf.drop 6144)).2)
  else ([], buf)
termination_by buf.length
decreasing_by
  simp only [List.length_drop]
  exact Nat.sub_lt (Nat.lt_of_lt_of_le (by norm_num) _h) (by norm_num)

/-- The `decrypter` async generator of decryption.ts on the
crypted-stream path (`isCryptedStream` true and a Blowfish key present),
as a function from the list of arriving network chunks to the list of
emitted buffers; `buf` is the `modifiedStream` accumulator.  At end of
input the final partial super-block gets its first 2048 bytes decrypted
only when at least 2048 bytes remain, else it is passed through. -/
def decrypterGo (dc : List Byte → List Byte) (buf : List Byte) :
    List (List Byte) → List (List Byte)
  | [] =>
    if 2048 ≤ buf.length then [dc (buf.take 2048) ++ buf.drop 2048] else [buf]
  | c :: cs =>
    (decrypterLoop dc (buf ++ c)).1
      ++ decrypterGo dc (decrypterLoop dc (buf ++ c)).2 cs

/-- The full streaming decrypter: starts with an empty buffer. -/
def decrypter (dc : List Byte → List Byte) (chunks : List (List Byte)) :
    List (List Byte) :=
  decrypterGo dc [] chunks

/-- The spec's description of the streaming transform, as a function of
the flat byte stream: for each complete 6144-byte super-block emit the
decryption of its first 2048 bytes followed by the remaining 4096 bytes
unchanged; the final partial super-block has its first 2048 bytes
decrypted only when at least 2048 bytes remain, and is otherwise passed
through unmodified. -/
def specSuperBlockDecrypt (dc : List Byte → List Byte) (bytes : List Byte) : List Byte :=
  if _h : 6144 ≤ bytes.length then
    (dc (bytes.take 2048) ++ (bytes.take 6144).drop 2048)
      ++ specSuperBlockDecrypt dc (bytes.drop 6144)
  else if 2048 ≤ bytes.length then dc (bytes.take 2048) ++ bytes.drop 2048
  else bytes
termination_by bytes.length
decreasing_by
  simp only [List.length_drop]
  exact Nat.sub_lt (Nat.lt_of_lt_of_le (by norm_num) _h) (by norm_num)

theorem decrypterLoop_rest_lt (dc : List Byte → List Byte) (buf : List Byte) :
    (decrypterLoop dc buf).2.length < 6144 := by
  induction buf using decrypterLoop.induct dc with
  | case1 buf h ih =>
    rw [decrypterLoop, dif_pos h]
    exact ih
  | case2 buf h =>
    rw [decrypterLoop, dif_neg h]
    simp only []
    omega

theorem decrypterLoop_spec (dc : List Byte → List Byte) (t : List Byte) (buf : List Byte) :
    (decrypterLoop dc buf).1.flatten
      ++ specSuperBlockDecrypt dc ((decrypterLoop dc buf).2 ++ t)
    = specSuperBlockDecrypt dc (buf ++ t) := by
  induction buf using decrypterLoop.induct dc with
  | case1 buf h ih =>
    rw [decrypterLoop, dif_pos h]
    dsimp only
    have hlen : 6144 ≤ (buf ++ t).length := by
      simp only [List.length_append]; omega
    conv_rhs => rw [specSuperBlockDecrypt, dif_pos hlen]
    have ht2048 : (buf ++ t).take 2048 = buf.take 2048 :=
      List.take_append_of_le_length (by omega)
    have ht6144 : (buf ++ t).take 6144 = buf.take 6144 :=
      List.take_append_of_le_length (by omega)
    have hd6144 : (buf ++ t).drop 6144 = buf.drop 6144 ++ t :=
      List.drop_append_of_le_length (by omega)
    rw [ht2048, ht6144, hd6144]
    simp only [List.flatten_cons]
    rw [List.append_assoc, ih, List.take_take]
    norm_num
  | case2 buf h =>
    rw [decrypterLoop, dif_neg h]
    simp

theorem decrypterGo_spec (dc : List Byte → List Byte) (cs : List (List Byte)) :
    ∀ buf : List Byte, buf.length < 6144 →
      (decrypterGo dc buf cs).flatten = specSuperBlockDecrypt dc (buf ++ cs.flatten) := by
  induction cs with
  | nil =>
    intro buf hb
    simp only [decrypterGo, List.flatten_nil, List.append_nil]
    rw [specSuperBlockDecrypt, dif_neg (by omega)]
    by_cases h2 : 2048 ≤ buf.length
    · rw [if_pos h2, if_pos h2]; simp
    · rw [if_neg h2, if_neg h2]; simp
  | cons c cs ih =>
    intro buf hb
    simp only [decrypterGo, List.flatten_append, List.flatten_cons]
    rw [ih _ (decrypterLoop_rest_lt dc (buf ++ c)), ← List.append_assoc]
    exact decrypterLoop_spec dc cs.flatten (buf ++ c)

/-- C1: feeding any chunking of a crypted byte stream through the
source's streaming `decrypter` produces exactly the spec's per-super-block
transform of the flat stream: each complete 6144-byte super-block is
emitted as the Blowfish-CBC decryption (fixed 8-byte IV 0..7, no padding)
of its first 2048 bytes followed by the remaining 4096 bytes unchanged;
the final partial super-block has its first 2048 bytes decrypted only
when at least 2048 bytes remain, and is passed through unmodified
otherwise.  `D` is the abstract Blowfish 8-byte block decryption. -/
theorem decrypter_matches_superblock_spec
    (D : List Byte → List Byte) (chunks : List (List Byte)) :
    (decrypter (decryptChunk D) chunks).flatten
      = specSuperBlockDecrypt (decryptChunk D) chunks.flatten := by
  have h := decrypterGo_spec (decryptChunk D) chunks [] (by simp)
  simpa [decrypter] using h

/-! ### Round-trip of the partial-block stream cipher (C2) -/

theorem length_xorBytes (a b : List Byte) :
    (xorBytes a b).length = min a.length b.length := by
  simp [xorBytes]

theorem xorBytes_cancel (a : List Byte) : ∀ b : List Byte, a.length = b.length →
    xorBytes a (xorBytes a b) = b := by
  induction a with
  | nil => intro b h; cases b <;> simp_all [xorBytes]
  | cons x xs ih =>
    intro b h
    cases b with
    | nil => simp at h
    | cons y ys =>
      simp only [xorBytes, List.zipWith_cons_cons] at ih ⊢
      rw [← Nat.xor_assoc, Nat.xor_self, Nat.zero_xor]
      exact congrArg (y :: ·) (ih ys (by simpa using h))

theorem chunkExact_flatten (n : Nat) (hn : 0 < n) (l : List Byte) :
    (chunkExact n l).flatten = l := by
  induction l using chunkExact.induct n with
  | case1 l h =>
    rcases h with h | h
    · subst h; rw [chunkExact]; simp
    · omega
  | case2 l h ih =>
    rw [chunkExact, dif_neg h]
    simp [ih]

theorem chunkExact_mem_length (n : Nat) (_hn : 0 < n) (l : List Byte) :
    l.length % n = 0 → ∀ b ∈ chunkExact n l, b.length = n := by
  induction l using chunkExact.induct n with
  | case1 l h =>
    intro _ b hb
    rw [chunkExact, dif_pos h] at hb
    simp at hb
  | case2 l h ih =>
    intro hl b hb
    push_neg at h
    have hnl : n ≤ l.length := by
      by_contra hlt
      push_neg at hlt
      have h0 : l.length % n = l.length := Nat.mod_eq_of_lt hlt
      rw [h0] at hl
      exact h.1 (List.length_eq_zero.mp hl)
    rw [chunkExact, dif_neg (by push_neg; exact h)] at hb
    rcases List.mem_cons.mp hb with hb | hb
    · subst hb
      simp [List.length_take, Nat.min_eq_left hnl]
    · refine ih ?_ b hb
      have hsplit : l.length = (l.length - n) + n := by omega
      rw [List.length_drop]
      rw [hsplit, Nat.add_mod_right] at hl
      exact hl

theorem chunkExact_of_blocks (n : Nat) (hn : 0 < n) (bs : List (List Byte)) :
    (∀ b ∈ bs, b.length = n) → chunkExact n bs.flatten = bs := by
  induction bs with
  | nil => intro _; rw [chunkExact]; simp
  | cons b bs ih =>
    intro hb
    have hbl : b.length = n := hb b (List.mem_cons_self _ _)
    have hbne : b ++ bs.flatten ≠ [] := by
      intro hcon
      have : b = [] := List.append_eq_nil.mp hcon |>.1
      rw [this] at hbl; simp at hbl; omega
    rw [List.flatten_cons, chunkExact, dif_neg (by push_neg; exact ⟨hbne, by omega⟩)]
    rw [List.take_left' hbl, List.drop_left' hbl]
    exact congrArg (b :: ·) (ih fun x hx => hb x (List.mem_cons_of_mem _ hx))

theorem cbcDecrypt_cbcEncrypt (D E : List Byte → List Byte)
    (hDE : ∀ b, D (E b) = b) (hE : ∀ b, b.length = 8 → (E b).length = 8)
    (bs : List (List Byte)) : ∀ iv : List Byte, iv.length = 8 →
    (∀ b ∈ bs, b.length = 8) →
    cbcDecryptBlocks D iv (cbcEncryptBlocks E iv bs) = bs := by
  induction bs with
  | nil => intro iv _ _; rfl
  | cons p ps ih =>
    intro iv hiv hb
    have hp : p.length = 8 := hb p (List.mem_cons_self _ _)
    simp only [cbcEncryptBlocks, cbcDecryptBlocks]
    rw [hDE, xorBytes_cancel iv p (by omega)]
    refine congrArg (p :: ·) (ih _ ?_ fun x hx => hb x (List.mem_cons_of_mem _ hx))
    rw [hE _ (by rw [length_xorBytes]; omega)]

theorem cbcEncryptBlocks_mem_length (E : List Byte → List Byte)
    (hE : ∀ b, b.length = 8 → (E b).length = 8)
    (bs : List (List Byte)) : ∀ iv : List Byte, iv.length = 8 →
    (∀ b ∈ bs, b.length = 8) →
    ∀ c ∈ cbcEncryptBlocks E iv bs, c.length = 8 := by
  induction bs with
  | nil => intro iv _ _ c hc; simp [cbcEncryptBlocks] at hc
  | cons p ps ih =>
    intro iv hiv hb c hc
    have hp : p.length = 8 := hb p (List.mem_cons_self _ _)
    have hhead : (E (xorBytes iv p)).length = 8 :=
      hE _ (by rw [length_xorBytes]; omega)
    simp only [cbcEncryptBlocks] at hc
    rcases List.mem_cons.mp hc with hc | hc
    · subst hc; exact hhead
    · exact ih _ hhead (fun x hx => hb x (List.mem_cons_of_mem _ hx)) c hc

theorem flatten_length_const (n : Nat) (bs : List (List Byte)) :
    (∀ b ∈ bs, b.length = n) → bs.flatten.length = bs.length * n := by
  induction bs with
  | nil => intro _; simp
  | cons b bs ih =>
    intro hb
    simp only [List.flatten_cons, List.length_append, List.length_cons]
    rw [hb b (List.mem_cons_self _ _), ih fun x hx => hb x (List.mem_cons_of_mem _ hx)]
    ring

theorem cbcEncryptBlocks_length (E : List Byte → List Byte)
    (bs : List (List Byte)) : ∀ iv : List Byte,
    (cbcEncryptBlocks E iv bs).length = bs.length := by
  induction bs with
  | nil => intro iv; rfl
  | cons p ps ih => intro iv; simp [cbcEncryptBlocks, ih]

theorem bfIV_length : bfIV.length = 8 := by rfl

theorem decryptChunk_encryptChunk (D E : List Byte → List Byte)
    (hDE : ∀ b, D (E b) = b) (hE : ∀ b, b.length = 8 → (E b).length = 8)
    (m : List Byte) (hm : m.length % 8 = 0) :
    decryptChunk D (encryptChunk E m) = m := by
  have hblocks : ∀ b ∈ chunkExact 8 m, b.length = 8 :=
    chunkExact_mem_length 8 (by norm_num) m hm
  have hcblocks : ∀ c ∈ cbcEncryptBlocks E bfIV (chunkExact 8 m), c.length = 8 :=
    cbcEncryptBlocks_mem_length E hE _ bfIV bfIV_length hblocks
  rw [decryptChunk, encryptChunk, chunkExact_of_blocks 8 (by norm_num) _ hcblocks,
      cbcDecrypt_cbcEncrypt D E hDE hE _ bfIV bfIV_length hblocks,
      chunkExact_flatten 8 (by norm_num)]

theorem encryptChunk_length (E : List Byte → List Byte)
    (hE : ∀ b, b.length = 8 → (E b).length = 8)
    (m : List Byte) (hm : m.length % 8 = 0) :
    (encryptChunk E m).length = m.length := by
  have hblocks : ∀ b ∈ chunkExact 8 m, b.length = 8 :=
    chunkExact_mem_length 8 (by norm_num) m hm
  have hcblocks : ∀ c ∈ cbcEncryptBlocks E bfIV (chunkExact 8 m), c.length = 8 :=
    cbcEncryptBlocks_mem_length E hE _ bfIV bfIV_length hblocks
  rw [encryptChunk, flatten_length_const 8 _ hcblocks, cbcEncryptBlocks_length]
  have h2 : m.length = (chunkExact 8 m).flatten.length := by
    rw [chunkExact_flatten 8 (by norm_num)]
  rw [h2, flatten_length_const 8 _ hblocks]

/-- Encryption of a full 6144-byte super-block with the matching scheme:
the first 2048 bytes are Blowfish-CBC encrypted under the fixed IV, the
remaining 4096 bytes are left as they are. -/
def encryptSuperBlockFull (E : List Byte → List Byte) (p : List Byte) : List Byte :=
  encryptChunk E (p.take 2048) ++ p.drop 2048

/-- C2: round-trip of the stream cipher.  For any Blowfish block cipher
pair (`E` forward, `D` inverse, 8-byte blocks), encrypting the first 2048
bytes of a 6144-byte super-block plaintext (respectively of a final
2048-byte partial block) with Blowfish-CBC under the fixed IV and then
running the source's streaming decrypter recovers the original plaintext
bytes exactly. -/
theorem streamcipher_roundtrip (D E : List Byte → List Byte)
    (hDE : ∀ b, D (E b) = b) (hE : ∀ b, b.length = 8 → (E b).length = 8)
    (p q : List Byte) (hp : p.length = 6144) (hq : q.length = 2048) :
    (decrypter (decryptChunk D) [encryptSuperBlockFull E p]).flatten = p ∧
    (decrypter (decryptChunk D) [encryptChunk E q]).flatten = q := by
  constructor
  · rw [decrypter_matches_superblock_spec]
    have htlen : (p.take 2048).length = 2048 := by
      rw [List.length_take]; omega
    have hclen : (encryptChunk E (p.take 2048)).length = 2048 := by
      rw [encryptChunk_length E hE _ (by rw [htlen])]; exact htlen
    have hlen : (encryptSuperBlockFull E p).length = 6144 := by
      rw [encryptSuperBlockFull, List.length_append, hclen, List.length_drop]; omega
    have hflat : ([encryptSuperBlockFull E p] : List (List Byte)).flatten
        = encryptSuperBlockFull E p := by simp
    have htake6144 : (encryptSuperBlockFull E p).take 6144 = encryptSuperBlockFull E p :=
      List.take_of_length_le (by rw [hlen])
    have htake2048 : (encryptSuperBlockFull E p).take 2048 = encryptChunk E (p.take 2048) := by
      rw [encryptSuperBlockFull, List.take_left' hclen]
    have hdrop2048 : (encryptSuperBlockFull E p).drop 2048 = p.drop 2048 := by
      rw [encryptSuperBlockFull, List.drop_left' hclen]
    have hdrop6144 : (encryptSuperBlockFull E p).drop 6144 = [] :=
      List.drop_eq_nil_of_le (by rw [hlen])
    have hspecnil : specSuperBlockDecrypt (decryptChunk D) [] = [] := by
      rw [specSuperBlockDecrypt]; norm_num
    rw [hflat, specSuperBlockDecrypt, dif_pos (by rw [hlen]), htake2048, htake6144,
        hdrop2048, hdrop6144, hspecnil, List.append_nil,
        decryptChunk_encryptChunk D E hDE hE _ (by rw [htlen]),
        List.take_append_drop]
  · rw [decrypter_matches_superblock_spec]
    have hclen : (encryptChunk E q).length = 2048 := by
      rw [encryptChunk_length E hE _ (by rw [hq]), hq]
    have hflat : ([encryptChunk E q] : List (List Byte)).flatten = encryptChunk E q := by
      simp
    rw [hflat, specSuperBlockDecrypt, dif_neg (by rw [hclen]; omega),
        if_pos (by rw [hclen])]
    rw [List.take_of_length_le (by rw [hclen]),
        List.drop_eq_nil_of_le (by rw [hclen]), List.append_nil]
    exact decryptChunk_encryptChunk D E hDE hE q (by rw [hq])

/-- Witness for C2 at concrete inputs: the identity block cipher and the
all-zero 6144-byte and 2048-byte plaintexts. -/
theorem streamcipher_roundtrip_witness :
    (decrypter (decryptChunk (fun b => b))
        [encryptSuperBlockFull (fun b => b) (List.replicate 6144 0)]).flatten
      = List.replicate 6144 0 ∧
    (decrypter (decryptChunk (fun b => b))
        [encryptChunk (fun b => b) (List.replicate 2048 0)]).flatten
      = List.replicate 2048 0 :=
  streamcipher_roundtrip (fun b => b) (fun b => b) (fun _ => rfl)
    (fun _ hb => hb) (List.replicate 6144 0) (List.replicate 2048 0)
    (by rw [List.length_replicate]) (by rw [List.length_replicate])

/-! ### Legacy URL derivation (C3) -/

/-- The fixed delimiter `"¤"` (U+00A4) joining the legacy URL fields in
`generateStreamPath` (downloader/types.ts). -/
def legacyDelim : String := "¤"

/-- The fixed AES application key passed to `_ecbCrypt` by
`generateStreamPath`. -/
def legacyAesKey : String := "jo6aey6haid2Teih"

/-- The joined string `md5 + "¤" + format + "¤" + sngID + "¤" + mediaVersion`
of `generateStreamPath`. -/
def legacyUrlPart (sngID md5 mediaVersion format : String) : String :=
  md5 ++ legacyDelim ++ format ++ legacyDelim ++ sngID ++ legacyDelim ++ mediaVersion

/-- The `step2` string of `generateStreamPath` before padding: the hash of
the joined string, the joined string, each followed by the delimiter.
`md5f` abstracts the node `crypto` MD5 hex digest (`_md5`). -/
def legacyStep2 (md5f : String → String) (sngID md5 mediaVersion format : String) : String :=
  md5f (legacyUrlPart sngID md5 mediaVersion format) ++ legacyDelim
    ++ legacyUrlPart sngID md5 mediaVersion format ++ legacyDelim

/-- The plaintext handed to AES by `generateStreamPath`:
`step2 += ".".repeat(16 - (step2.length % 16))` - i.e. padded with `"."`
characters, a full 16 of them when the length is already a multiple
of 16. -/
def legacyPaddedPlaintext (md5f : String → String)
    (sngID md5 mediaVersion format : String) : String :=
  legacyStep2 md5f sngID md5 mediaVersion format
    ++ String.mk (List.replicate
        (16 - (legacyStep2 md5f sngID md5 mediaVersion format).length % 16) '.')

/-- `generateStreamPath` from downloader/types.ts.  `ecbf` abstracts
`_ecbCrypt` (AES-128-ECB with `setAutoPadding(false)`, lowercase hex
output), a node `crypto` primitive. -/
def generateStreamPath (md5f : String → String) (ecbf : String → String → String)
    (sngID md5 mediaVersion format : String) : String :=
  ecbf legacyAesKey (legacyPaddedPlaintext md5f sngID md5 mediaVersion format)

/-- `generateCryptedStreamURL` from downloader/types.ts: the CDN path,
sharded by the first character of the content hash (`md5[0]`). -/
def generateCryptedStreamURL (md5f : String → String) (ecbf : String → String → String)
    (sngID md5 mediaVersion format : String) : String :=
  "https://e-cdn-proxy-" ++ String.mk (md5.toList.take 1) ++ ".dzcdn.net/api/1/"
    ++ generateStreamPath md5f ecbf sngID md5 mediaVersion format

/-- The padded plaintext as the claim words it: zero-padded to a 16-byte
multiple (so nothing is appended when the length is already a multiple of
16, and the padding bytes are NUL). -/
def specZeroPaddedPlaintext (md5f : String → String)
    (sngID md5 mediaVersion format : String) : String :=
  legacyStep2 md5f sngID md5 mediaVersion format
    ++ String.mk (List.replicate
        ((16 - (legacyStep2 md5f sngID md5 mediaVersion format).length % 16) % 16)
        (Char.ofNat 0))

set_option maxRecDepth 4000 in
/-- Counterexample to C3 as stated: with a 32-hex-character content hash
and field widths making `step2` exactly 80 characters (a multiple of 16),
the source appends sixteen `"."` characters - 96 characters total, last
character `"."` - while zero-padding would append nothing. -/
theorem generateStreamPath_not_zero_padded :
    (legacyPaddedPlaintext (fun _ => String.mk (List.replicate 32 'a'))
        "12345" (String.mk (List.replicate 32 'b')) "45678" "1").length = 96 ∧
    (specZeroPaddedPlaintext (fun _ => String.mk (List.replicate 32 'a'))
        "12345" (String.mk (List.replicate 32 'b')) "45678" "1").length = 80 ∧
    (legacyPaddedPlaintext (fun _ => String.mk (List.replicate 32 'a'))
        "12345" (String.mk (List.replicate 32 'b')) "45678" "1").back = '.' ∧
    legacyPaddedPlaintext (fun _ => String.mk (List.replicate 32 'a'))
        "12345" (String.mk (List.replicate 32 'b')) "45678" "1"
      ≠ specZeroPaddedPlaintext (fun _ => String.mk (List.replicate 32 'a'))
        "12345" (String.mk (List.replicate 32 'b')) "45678" "1" := by
  refine ⟨by decide, by decide, by decide, ?_⟩
  intro h
  have hlen := congrArg String.length h
  revert hlen
  decide

/-- The amended claim's derivation, written from its words: join
{content-hash, quality-code, track-id, media-version} with the fixed
delimiter, MD5-hash the joined string, prepend that hash plus the original
string plus the delimiter, pad with `"."` (0x2E) characters to the next
16-byte multiple (appending a full 16 when already aligned), encrypt with
AES-128-ECB without padding under the fixed application key, and embed the
hex ciphertext in a CDN path sharded by the content hash's first hex
digit. -/
def specAmendedStreamURL (md5f : String → String) (ecbf : String → String → String)
    (sngID md5 mediaVersion format : String) : String :=
  "https://e-cdn-proxy-" ++ String.mk (md5.toList.take 1) ++ ".dzcdn.net/api/1/"
    ++ ecbf "jo6aey6haid2Teih"
        ((md5f (md5 ++ "¤" ++ format ++ "¤" ++ sngID ++ "¤" ++ mediaVersion)
            ++ "¤" ++ (md5 ++ "¤" ++ format ++ "¤" ++ sngID ++ "¤" ++ mediaVersion) ++ "¤")
          ++ String.mk (List.replicate
              (16 - (md5f (md5 ++ "¤" ++ format ++ "¤" ++ sngID ++ "¤" ++ mediaVersion)
                  ++ "¤" ++ (md5 ++ "¤" ++ format ++ "¤" ++ sngID ++ "¤" ++ mediaVersion)
                  ++ "¤").length % 16) '.'))

/-- C3 (amended): the legacy URL derivation joins {content-hash,
quality-code, track-id, media-version} with the fixed delimiter, hashes
the joined string, prepends that hash plus the original string plus the
delimiter, pads with `"."` characters to the next 16-byte multiple
(appending a full 16-character block when already aligned - so the padded
plaintext is always a 16-multiple and between 1 and 16 padding characters
are appended), encrypts it with AES-128-ECB without padding under the
fixed application key, and embeds the hex ciphertext in a CDN path whose
shard is the content hash's first hex digit. -/
theorem generateCryptedStreamURL_amended (md5f : String → String)
    (ecbf : String → String → String) (sngID md5 mediaVersion format : String) :
    generateCryptedStreamURL md5f ecbf sngID md5 mediaVersion format
      = specAmendedStreamURL md5f ecbf sngID md5 mediaVersion format ∧
    (legacyPaddedPlaintext md5f sngID md5 mediaVersion format).length % 16 = 0 ∧
    1 ≤ 16 - (legacyStep2 md5f sngID md5 mediaVersion format).length % 16 ∧
    16 - (legacyStep2 md5f sngID md5 mediaVersion format).length % 16 ≤ 16 := by
  refine ⟨rfl, ?_, ?_, ?_⟩
  · rw [legacyPaddedPlaintext, String.length_append]
    have hmk : (String.mk (List.replicate
        (16 - (legacyStep2 md5f sngID md5 mediaVersion format).length % 16) '.')).length
        = 16 - (legacyStep2 md5f sngID md5 mediaVersion format).length % 16 := by
      show (List.replicate
        (16 - (legacyStep2 md5f sngID md5 mediaVersion format).length % 16) '.').length = _
      exact List.length_replicate _ _
    rw [hmk]
    omega
  · omega
  · omega

/-! ### Batch scheduler concurrency (C4) -/

/-- State of the cooperative event-loop simulation of
`processArtistsBatch` (sync.ts lines 123-149).  Durations are virtual
time units; a task started at `now` with duration `d` resolves at
`now + d`; code between two `await`s runs at a single instant.
`executing` mirrors the JS `executing` array (promise identity = task
index, paired with its resolution time); `running` records the resolution
times of every started task; `peak` is the largest number of
started-but-unresolved tasks observed right after any task start. -/
structure BatchState where
  now : Nat
  executing : List (Nat × Nat)
  running : List Nat
  peak : Nat
  nextId : Nat
deriving Repr, DecidableEq

def initBatchState : BatchState := ⟨0, [], [], 0, 0⟩

/-- The instant at which `await Promise.race(executing)` resumes:
immediately if some promise in the list has already resolved, else at the
earliest resolution time among them. -/
def raceTime (now : Nat) : List (Nat × Nat) → Nat
  | [] => now
  | e :: es => max now (es.foldl (fun m p => min m p.2) e.2)

/-- One iteration of the `for (const item of items)` loop of
`processArtistsBatch`: start the task (`processor(item)`), push its
promise; when `executing.length >= concurrency`, await the race and then
`splice` out the promise found by `findIndex((p) => p === promise)` -
which is the promise pushed in THIS iteration, not the completed one. -/
def batchStep (concurrency : Nat) (st : BatchState) (d : Nat) : BatchState :=
  let fin := st.now + d
  let running := fin :: st.running
  let executing := st.executing ++ [(st.nextId, fin)]
  let peak := max st.peak (running.countP (fun f => decide (st.now < f)))
  if concurrency ≤ executing.length then
    { now := raceTime st.now executing,
      executing := executing.eraseP (fun e => e.1 == st.nextId),
      running := running, peak := peak, nextId := st.nextId + 1 }
  else
    { now := st.now, executing := executing, running := running,
      peak := peak, nextId := st.nextId + 1 }

/-- `processArtistsBatch` over a list of task durations. -/
def processArtistsBatch (concurrency : Nat) (durations : List Nat) : BatchState :=
  durations.foldl (batchStep concurrency) initBatchState

/-- C4 fails on the code: with concurrency limit 2 and four artist checks
of durations 1, 10, 10, 10 time units, three checks are simultaneously
started but unresolved.  After the first check completes, each iteration
splices the just-pushed promise out of `executing` instead of the
completed one, so later races resolve against an already-settled promise
and new checks start while earlier ones still run. -/
theorem processArtistsBatch_exceeds_limit :
    2 < (processArtistsBatch 2 [1, 10, 10, 10]).peak ∧
    (processArtistsBatch 2 [1, 10, 10, 10]).peak = 3 := by
  constructor
  · decide
  · decide

/-! ### Wholly-failed release folder handling (C5) -/

/-- One per-track result of an album download (`DownloadResult` in
downloader/types.ts, restricted to the fields the sync engine reads). -/
structure DownloadResult where
  success : Bool
  error : Option String
deriving Repr, DecidableEq

/-- The filesystem abstracted as the set (list) of folders present. -/
abbrev Folders := List String

/-- `createReleaseFolders([release])` - `mkdirSync(..., recursive)`:
adds the folder when missing. -/
def createReleaseFolders (fs : Folders) (folder : String) : Folders :=
  if folder ∈ fs then fs else folder :: fs

/-- The folder effect of the per-release body of `syncLibrary`
(sync.ts lines 291-329) in a non-dry-run: `downloadRelease` creates the
release folder and runs the album download; failed results are only
written to the failure log - no branch removes the folder, whatever the
results are. -/
def syncProcessReleaseFolders (fs : Folders) (folder : String)
    (_results : List DownloadResult) : Folders :=
  createReleaseFolders fs folder

/-- The corresponding step of the standalone CLI downloader
(part_017 lines 306-323): after the album download, when no track
succeeded and at least one failed, `fs.rmSync(release.folderPath)`
removes the release folder ("Removed empty folder (will retry next
run)"). -/
def cliProcessReleaseFolders (fs : Folders) (folder : String)
    (results : List DownloadResult) : Folders :=
  let fs1 := createReleaseFolders fs folder
  if results.countP (fun r => r.success) = 0 ∧ 0 < results.countP (fun r => !r.success)
  then fs1.filter (fun f => f ≠ folder)
  else fs1

/-- C5 fails on the sync engine: a non-dry-run sync run that downloads a
new release whose every track fails leaves the created release folder in
place (`syncProcessReleaseFolders`), while the standalone CLI - and the
spec - delete it so the next run retries. -/
theorem syncLibrary_keeps_wholly_failed_folder :
    "X - Album" ∈ syncProcessReleaseFolders [] "X - Album"
        [⟨false, some "Download timeout"⟩] ∧
    "X - Album" ∉ cliProcessReleaseFolders [] "X - Album"
        [⟨false, some "Download timeout"⟩] := by
  constructor
  · decide
  · decide

/-! ### Sync-state update on a successful check (C6) -/

/-- A per-artist sync-state record (`ArtistState` in the state module's
types: `name`, `lastChecked` ISO timestamp, `deezerId`, optional
`lastReleaseDate`). -/
structure ArtistState where
  name : String
  lastChecked : String
  deezerId : Nat
  lastReleaseDate : Option String
deriving Repr, DecidableEq

/-- `state.artists`: at most one record per artist id. -/
abbrev SyncState := List (Nat × ArtistState)

def findArtist (s : SyncState) (id : Nat) : Option ArtistState :=
  (s.find? (fun p => p.1 == id)).map Prod.snd

def insertArtist (s : SyncState) (id : Nat) (a : ArtistState) : SyncState :=
  match s with
  | [] => [(id, a)]
  | p :: rest => if p.1 == id then (id, a) :: rest else p :: insertArtist rest id a

/-- `updateArtistCheck` (state module, part_016 lines 47-71).  The new
record is built as
`{ name: artistName, lastChecked: timestamp.toISOString(), deezerId: artistId, ...(state.artists[artistId] || {}) }`:
the spread of the existing record comes LAST, so every field present on
the existing record (`name`, `lastChecked`, `deezerId` always;
`lastReleaseDate` when set) overrides the freshly supplied values. -/
def updateArtistCheck (s : SyncState) (artistId : Nat) (artistName : String)
    (timestamp : String) : SyncState :=
  let merged : ArtistState :=
    match findArtist s artistId with
    | none => ⟨artistName, timestamp, artistId, none⟩
    | some old =>
      { name := old.name, lastChecked := old.lastChecked, deezerId := old.deezerId,
        lastReleaseDate := old.lastReleaseDate }
  insertArtist s artistId merged

/-- C6 fails on the code: when a record for the artist id already exists,
`updateArtistCheck` leaves `name` and `lastChecked` at their old values
(the spread of the existing record overrides the new fields); only a
fresh record gets the new timestamp and name. -/
theorem updateArtistCheck_stale_on_existing :
    findArtist (updateArtistCheck
        [(7, ⟨"Old Name", "2024-01-01T00:00:00.000Z", 7, none⟩)]
        7 "New Name" "2024-06-01T00:00:00.000Z") 7
      = some ⟨"Old Name", "2024-01-01T00:00:00.000Z", 7, none⟩ ∧
    findArtist (updateArtistCheck [] 7 "New Name" "2024-06-01T00:00:00.000Z") 7
      = some ⟨"New Name", "2024-06-01T00:00:00.000Z", 7, none⟩ := by
  constructor
  · decide
  · decide

/-! ### Gateway token refresh and retry (C7) -/

/-- A gateway response as the client classifies it: success,
the invalid/expired-token error payload
(`{"GATEWAY_ERROR":"invalid api token"}`), the invalid-CSRF error payload
(`{"VALID_TOKEN_REQUIRED":"Invalid CSRF token"}`), or any other error
payload. -/
inductive GWResp where
  | ok (results : String)
  | tokenError
  | csrfError
  | otherError (err : String)
deriving Repr, DecidableEq

/-- One HTTP request as issued by `GW.api_call`: method, JSON body
(`args`), extra query params, and the `api_token` query parameter. -/
structure GWReq where
  method : String
  args : List (String × String)
  params : List (String × String)
  apiToken : String
deriving Repr, DecidableEq

/-- The outcome of a (possibly retried) `api_call`: final result, the
requests issued in order, the unconsumed token oracle and the client's
token state. -/
structure GWOutcome where
  result : Except String String
  trace : List GWReq
  tokensLeft : List String
  tokenState : Option String

/-- The `api_token` query parameter: the literal `"null"` for
`deezer.getUserData`, else the current token. -/
def tokenParam (method : String) (tok : Option String) : String :=
  if method == "deezer.getUserData" then "null" else tok.getD ""

/-- `this.api_token = await this._get_token()`, with the nested
`getUserData` round-trip abstracted as drawing the next value from a
token oracle. -/
def refreshToken : List String → Option String × List String
  | [] => (none, [])
  | t :: ts => (some t, ts)

/-- `GW.api_call` (part_018 lines 31-84) over a list of server responses
consumed one per HTTP request.  On the invalid-token or invalid-CSRF
error payload the client refreshes its token and re-issues the very same
call (same method, args, params); on any other error payload it throws a
`GWAPIError` without retrying. -/
def api_call (method : String) (args params : List (String × String)) :
    Option String → List String → List GWResp → GWOutcome
  | tok, tokens, [] => ⟨Except.error "no response", [], tokens, tok⟩
  | tok, tokens, r :: rest =>
    -- `if (!this.api_token && method !== "deezer.getUserData") ... _get_token()`
    let st1 :=
      if tok = none ∧ method ≠ "deezer.getUserData" then refreshToken tokens
      else (tok, tokens)
    let req : GWReq := ⟨method, args, params, tokenParam method st1.1⟩
    match r with
    | GWResp.ok v => ⟨Except.ok v, [req], st1.2, st1.1⟩
    | GWResp.tokenError =>
      let st2 := refreshToken st1.2
      let out := api_call method args params st2.1 st2.2 rest
      ⟨out.result, req :: out.trace, out.tokensLeft, out.tokenState⟩
    | GWResp.csrfError =>
      let st2 := refreshToken st1.2
      let out := api_call method args params st2.1 st2.2 rest
      ⟨out.result, req :: out.trace, out.tokensLeft, out.tokenState⟩
    | GWResp.otherError e => ⟨Except.error e, [req], st1.2, st1.1⟩

/-- C7: when a call holding token `t0` receives the invalid/expired-token
or the invalid-CSRF error payload, the client issues that one request,
refreshes the API token exactly once (drawing `t`), and retries the very
same call - same method, body and params - under the new token; any other
error payload is thrown without a retry. -/
theorem api_call_refreshes_once_and_retries (method : String)
    (args params : List (String × String)) (t0 t : String) (ts : List String)
    (rest : List GWResp) (e : GWResp)
    (he : e = GWResp.tokenError ∨ e = GWResp.csrfError) :
    (api_call method args params (some t0) (t :: ts) (e :: rest)).trace
        = ⟨method, args, params, tokenParam method (some t0)⟩
            :: (api_call method args params (some t) ts rest).trace ∧
    (api_call method args params (some t0) (t :: ts) (e :: rest)).result
        = (api_call method args params (some t) ts rest).result ∧
    (∀ msg : String,
      (api_call method args params (some t0) (t :: ts)
          (GWResp.otherError msg :: rest)).trace
        = [⟨method, args, params, tokenParam method (some t0)⟩] ∧
      (api_call method args params (some t0) (t :: ts)
          (GWResp.otherError msg :: rest)).result = Except.error msg) := by
  rcases he with he | he <;> subst he <;>
    refine ⟨?_, ?_, fun msg => ⟨?_, ?_⟩⟩ <;>
    simp [api_call, refreshToken]

/-- Witness for C7 at a concrete call: a `song.getData` call whose first
response is the token error and whose second succeeds. -/
theorem api_call_refreshes_once_and_retries_witness :
    (api_call "song.getData" [("SNG_ID", "1")] [] (some "tokA") ["tokB"]
        [GWResp.tokenError, GWResp.ok "r"]).trace
      = ⟨"song.getData", [("SNG_ID", "1")], [], tokenParam "song.getData" (some "tokA")⟩
          :: (api_call "song.getData" [("SNG_ID", "1")] [] (some "tokB") []
              [GWResp.ok "r"]).trace ∧
    (api_call "song.getData" [("SNG_ID", "1")] [] (some "tokA") ["tokB"]
        [GWResp.tokenError, GWResp.ok "r"]).result
      = (api_call "song.getData" [("SNG_ID", "1")] [] (some "tokB") []
          [GWResp.ok "r"]).result :=
  ⟨(api_call_refreshes_once_and_retries "song.getData" [("SNG_ID", "1")] []
      "tokA" "tokB" [] [GWResp.ok "r"] GWResp.tokenError (Or.inl rfl)).1,
   (api_call_refreshes_once_and_retries "song.getData" [("SNG_ID", "1")] []
      "tokA" "tokB" [] [GWResp.ok "r"] GWResp.tokenError (Or.inl rfl)).2.1⟩

/-! ### Track download retry policy (C8) -/

/-- The error shape the retry wrapper inspects: `name`, `message`,
`code`. -/
structure JsError where
  name : String
  message : String
  code : String
deriving Repr, DecidableEq

def isPrefixOfB : List Char → List Char → Bool
  | [], _ => true
  | _ :: _, [] => false
  | a :: as, b :: bs => a == b && isPrefixOfB as bs

/-- `String.prototype.includes`. -/
def containsSub (sub : List Char) : List Char → Bool
  | [] => isPrefixOfB sub []
  | c :: cs => isPrefixOfB sub (c :: cs) || containsSub sub cs

def strIncludes (s sub : String) : Bool := containsSub sub.toList s.toList

/-- The `isRetryable` classification of `streamTrack`
(decryption.ts lines 38-43). -/
def isRetryable (e : JsError) : Bool :=
  e.name == "AbortError" ||
  strIncludes e.message "aborted" ||
  strIncludes e.message "timeout" ||
  strIncludes e.message "Timeout" ||
  (e.code == "ESOCKETTIMEDOUT" || e.code == "ERR_STREAM_PREMATURE_CLOSE" ||
   e.code == "ETIMEDOUT" || e.code == "ECONNRESET" || e.code == "ENOTFOUND")

/-- What one `streamTrackInternal` attempt would do, as an oracle
value. -/
inductive AttemptOutcome where
  | success
  | failure (e : JsError)
deriving Repr, DecidableEq

/-- Observable behaviour of a `streamTrack` run: whether it succeeded,
the error finally raised (if any), the number of attempts made, the
pre-retry delays in order, and how many times a partial output file was
deleted. -/
structure StreamTrackRun where
  ok : Bool
  raised : Option JsError
  attempts : Nat
  delays : List Nat
  deletions : Nat
deriving Repr, DecidableEq

/-- The retry wrapper `streamTrack` (decryption.ts lines 18-54) over an
oracle of per-attempt outcomes.  Each attempt is one
`streamTrackInternal` call; on any pipeline error the partial output
file is deleted (`fs.unlinkSync`, line 185), counted in `deletions`.
`MAX_RETRIES = 3`; the pre-retry delay is
`Math.min(1000 * Math.pow(2, retryCount), 5000)`. -/
def streamTrackRun (retryCount : Nat) : List AttemptOutcome → StreamTrackRun
  | [] => ⟨false, none, 0, [], 0⟩
  | AttemptOutcome.success :: _ => ⟨true, none, 1, [], 0⟩
  | AttemptOutcome.failure e :: rest =>
    if isRetryable e ∧ retryCount < 3 then
      let r := streamTrackRun (retryCount + 1) rest
      ⟨r.ok, r.raised, r.attempts + 1, min (1000 * 2 ^ retryCount) 5000 :: r.delays,
       r.deletions + 1⟩
    else ⟨false, some e, 1, [], 1⟩

def streamTrack (outcomes : List AttemptOutcome) : StreamTrackRun :=
  streamTrackRun 0 outcomes

theorem streamTrackRun_inv (outcomes : List AttemptOutcome) : ∀ k : Nat,
    (streamTrackRun k outcomes).attempts ≤ max 1 (4 - k) ∧
    ((streamTrackRun k outcomes).ok = true →
      (streamTrackRun k outcomes).deletions + 1 = (streamTrackRun k outcomes).attempts) ∧
    ((streamTrackRun k outcomes).ok = false →
      (streamTrackRun k outcomes).deletions = (streamTrackRun k outcomes).attempts) ∧
    (streamTrackRun k outcomes).delays
      = (List.range (streamTrackRun k outcomes).delays.length).map
          (fun j => min (1000 * 2 ^ (k + j)) 5000) ∧
    (streamTrackRun k outcomes).delays.length ≤ 3 - k := by
  induction outcomes with
  | nil =>
    intro k
    refine ⟨by simp [streamTrackRun], by simp [streamTrackRun], by simp [streamTrackRun],
      by simp [streamTrackRun], by simp [streamTrackRun]⟩
  | cons o rest ih =>
    intro k
    cases o with
    | success =>
      refine ⟨by simp [streamTrackRun], by simp [streamTrackRun], by simp [streamTrackRun],
        by simp [streamTrackRun], by simp [streamTrackRun]⟩
    | failure e =>
      by_cases hr : isRetryable e ∧ k < 3
      · obtain ⟨iha, ihok, ihnok, ihd, ihdl⟩ := ih (k + 1)
        have hk3 : k < 3 := hr.2
        have hm1 : max 1 (4 - (k + 1)) = 3 - k := by rw [Nat.max_def]; split <;> omega
        have hm2 : max 1 (4 - k) = 4 - k := by rw [Nat.max_def]; split <;> omega
        rw [hm1] at iha
        refine ⟨?_, ?_, ?_, ?_, ?_⟩
        · simp only [streamTrackRun, if_pos hr]
          rw [hm2]; omega
        · simp only [streamTrackRun, if_pos hr]
          intro hok
          have := ihok hok
          omega
        · simp only [streamTrackRun, if_pos hr]
          intro hnok
          have := ihnok hnok
          omega
        · simp only [streamTrackRun, if_pos hr, List.length_cons,
            List.range_succ_eq_map, List.map_cons, List.map_map, Nat.add_zero]
          refine congrArg₂ (· :: ·) rfl ?_
          conv_lhs => rw [ihd]
          refine List.map_congr_left fun j _ => ?_
          simp only [Function.comp_apply]
          have hkj : k + 1 + j = k + (j + 1) := by omega
          rw [hkj]
        · simp only [streamTrackRun, if_pos hr, List.length_cons]
          omega
      · refine ⟨?_, ?_, ?_, ?_, ?_⟩ <;> simp [streamTrackRun, if_neg hr]

/-- C8: the `streamTrack` retry policy.  A run makes at most 4 attempts
(the initial one plus at most `MAX_RETRIES = 3` retries); the pre-retry
delays are the initial segment of `min(1000 * 2^k, 5000)`, `k = 0, 1, 2` -
doubling from 1s, capped at 5s - with at most 3 of them; every failed
attempt deletes the partial output file (deletions equal the failed
attempts); a first failure whose cause is non-retryable is raised
immediately after a single attempt with no delay; explicit cancel and
zero content-length ("Download was canceled" / "Download returned empty
content") are non-retryable, while timeout, connection-reset,
premature-close and abort causes are retryable. -/
theorem streamTrack_retry_policy :
    (∀ outcomes : List AttemptOutcome,
      (streamTrack outcomes).attempts ≤ 4 ∧
      (streamTrack outcomes).delays
        = (List.range (streamTrack outcomes).delays.length).map
            (fun j => min (1000 * 2 ^ j) 5000) ∧
      (streamTrack outcomes).delays.length ≤ 3 ∧
      (streamTrack outcomes).deletions
        = (streamTrack outcomes).attempts
            - (if (streamTrack outcomes).ok then 1 else 0)) ∧
    (∀ (e : JsError) (rest : List AttemptOutcome), isRetryable e = false →
      streamTrack (AttemptOutcome.failure e :: rest) = ⟨false, some e, 1, [], 1⟩) ∧
    isRetryable ⟨"Error", "Download was canceled", ""⟩ = false ∧
    isRetryable ⟨"Error", "Download returned empty content", ""⟩ = false ∧
    isRetryable ⟨"AbortError", "This operation was aborted", ""⟩ = true ∧
    isRetryable ⟨"Error", "Timeout awaiting response", ""⟩ = true ∧
    isRetryable ⟨"Error", "socket hang up", "ECONNRESET"⟩ = true ∧
    isRetryable ⟨"Error", "premature close", "ERR_STREAM_PREMATURE_CLOSE"⟩ = true ∧
    isRetryable ⟨"Error", "connect timed out", "ETIMEDOUT"⟩ = true := by
  refine ⟨?_, ?_, by decide, by decide, by decide, by decide, by decide, by decide, by decide⟩
  · intro outcomes
    obtain ⟨ha, hok, hnok, hd, hdl⟩ := streamTrackRun_inv outcomes 0
    have hm : max 1 (4 - 0) = 4 := by rw [Nat.max_def]; split <;> omega
    rw [hm] at ha
    simp only [streamTrack]
    refine ⟨ha, by simpa using hd, hdl, ?_⟩
    by_cases hb : (streamTrackRun 0 outcomes).ok = true
    · rw [if_pos hb]
      have := hok hb
      omega
    · rw [if_neg hb]
      have hb2 : (streamTrackRun 0 outcomes).ok = false := by
        revert hb; cases (streamTrackRun 0 outcomes).ok <;> simp
      have := hnok hb2
      omega
  · intro e rest hre
    simp [streamTrack, streamTrackRun, hre]

/-- Witness for C8: a run whose first attempt fails with the explicit
cancel error stops after one attempt with no delay, and a run of four
retryable timeouts stops at 4 attempts. -/
theorem streamTrack_retry_policy_witness :
    streamTrack [AttemptOutcome.failure ⟨"Error", "Download was canceled", ""⟩]
      = ⟨false, some ⟨"Error", "Download was canceled", ""⟩, 1, [], 1⟩ ∧
    (streamTrack (List.replicate 5
        (AttemptOutcome.failure ⟨"Error", "", "ETIMEDOUT"⟩))).attempts ≤ 4 :=
  ⟨streamTrack_retry_policy.2.1 ⟨"Error", "Download was canceled", ""⟩ [] (by decide),
   (streamTrack_retry_policy.1 (List.replicate 5
      (AttemptOutcome.failure ⟨"Error", "", "ETIMEDOUT"⟩))).1⟩

/-! ### Skip-interval boundary (C9) -/

/-- `getLastCheck` (part_016 lines 94-108): the stored ISO timestamp of
the artist's record, parsed with `new Date(...)`.  `parse` abstracts the
JS `Date` parser, returning epoch milliseconds, or `none` for an invalid
date (whose `NaN` comparisons are all false in the caller). -/
def getLastCheck (parse : String → Option Int) (s : SyncState) (id : Nat) : Option Int :=
  match findArtist s id with
  | none => none
  | some a => parse a.lastChecked

/-- `shouldSkipArtist` (part_016 lines 113-125): skip when
`(Date.now() - lastCheck.getTime()) / (1000 * 60 * 60) < checkIntervalHours`.
JS float arithmetic is exact at these magnitudes; modelled over ℚ. -/
def shouldSkipArtist (parse : String → Option Int) (now : Int) (s : SyncState)
    (id : Nat) (checkIntervalHours : ℚ) : Bool :=
  match getLastCheck parse s id with
  | none => false
  | some last =>
    decide ((((now - last : Int) : ℚ) / (1000 * 60 * 60)) < checkIntervalHours)

/-- C9: with full-sync off the skip test is the strict inequality
`now - lastChecked < recheckInterval`: an artist whose record parses to
epoch `L` is skipped iff `now - L < interval * 3600000` ms; checked
exactly `h` hours ago it is NOT skipped; checked `h` hours minus one
second ago it IS skipped; an artist with no parsed `lastChecked` is never
skipped. -/
theorem shouldSkipArtist_strict_boundary (parse : String → Option Int)
    (s : SyncState) (id : Nat) (L : Int)
    (hL : getLastCheck parse s id = some L) (h : Nat) :
    (∀ (now : Int) (interval : ℚ),
      shouldSkipArtist parse now s id interval = true
        ↔ ((now - L : Int) : ℚ) < interval * 3600000) ∧
    shouldSkipArtist parse (L + (h : Int) * 3600000) s id (h : ℚ) = false ∧
    shouldSkipArtist parse (L + (h : Int) * 3600000 - 1000) s id (h : ℚ) = true ∧
    (∀ (s2 : SyncState) (id2 : Nat) (now : Int) (interval : ℚ),
      getLastCheck parse s2 id2 = none →
      shouldSkipArtist parse now s2 id2 interval = false) := by
  have hpos : (0 : ℚ) < 1000 * 60 * 60 := by norm_num
  have hiff : ∀ (now : Int) (interval : ℚ),
      shouldSkipArtist parse now s id interval = true
        ↔ ((now - L : Int) : ℚ) < interval * 3600000 := by
    intro now interval
    rw [shouldSkipArtist, hL]
    rw [decide_eq_true_iff, div_lt_iff₀ hpos]
    norm_num
  refine ⟨hiff, ?_, ?_, ?_⟩
  · rw [← Bool.not_eq_true, hiff]
    push_cast
    intro hcon
    rw [show (L : ℚ) + h * 3600000 - L = h * 3600000 by ring] at hcon
    exact lt_irrefl _ hcon
  · rw [hiff]
    push_cast
    rw [show (L : ℚ) + h * 3600000 - 1000 - L = h * 3600000 - 1000 by ring]
    norm_num
  · intro s2 id2 now interval hn
    rw [shouldSkipArtist, hn]

/-- Witness for C9: a single-record state whose timestamp parses to epoch
0, at a 24-hour interval. -/
theorem shouldSkipArtist_strict_boundary_witness :
    shouldSkipArtist (fun _ => some 0) ((0 : Int) + (24 : Nat) * 3600000)
        [(1, ⟨"A", "1970-01-01T00:00:00.000Z", 1, none⟩)] 1 (24 : ℚ) = false ∧
    shouldSkipArtist (fun _ => some 0) ((0 : Int) + (24 : Nat) * 3600000 - 1000)
        [(1, ⟨"A", "1970-01-01T00:00:00.000Z", 1, none⟩)] 1 (24 : ℚ) = true :=
  ⟨(shouldSkipArtist_strict_boundary (fun _ => some 0)
      [(1, ⟨"A", "1970-01-01T00:00:00.000Z", 1, none⟩)] 1 0 rfl 24).2.1,
   (shouldSkipArtist_strict_boundary (fun _ => some 0)
      [(1, ⟨"A", "1970-01-01T00:00:00.000Z", 1, none⟩)] 1 0 rfl 24).2.2.1⟩

/-! ### Filename / folder-name sanitization (C10) -/

/-- The characters removed by `.replace(/[<>:"\/\\|?*]/g, "_")`. -/
def invalidFileChars : List Char := ['<', '>', ':', '"', '/', '\\', '|', '?', '*']

/-- JS `\s` / `trim` whitespace, restricted to the ASCII whitespace
characters (space, tab, newline, carriage return, vertical tab, form
feed). -/
def isWs (c : Char) : Bool :=
  c == ' ' || c == '\t' || c == '\n' || c == '\r' || c == '\x0b' || c == '\x0c'

/-- `.replace(/[<>:"\/\\|?*]/g, "_")`. -/
def replaceInvalid (l : List Char) : List Char :=
  l.map (fun c => if c ∈ invalidFileChars then '_' else c)

/-- `.replace(/\s+/g, " ")`, with a flag recording whether the previous
character was part of a whitespace run: every maximal whitespace run
becomes one space. -/
def collapseWsAux : Bool → List Char → List Char
  | _, [] => []
  | true, c :: cs =>
    if isWs c then collapseWsAux true cs else c :: collapseWsAux false cs
  | false, c :: cs =>
    if isWs c then ' ' :: collapseWsAux true cs else c :: collapseWsAux false cs

def collapseWs (l : List Char) : List Char := collapseWsAux false l

/-- `String.prototype.trim`. -/
def trimLeft (l : List Char) : List Char := l.dropWhile isWs

def trimRight (l : List Char) : List Char := (l.reverse.dropWhile isWs).reverse

def trimJs (l : List Char) : List Char := trimRight (trimLeft l)

/-- `.replace(/\.+$/g, "")` of the folder-name sanitizer. -/
def stripTrailingDots (l : List Char) : List Char :=
  (l.reverse.dropWhile (fun c => c == '.')).reverse

/-- `sanitizeFilename` (part_012 lines 198-205): replace invalid
characters, collapse whitespace runs, trim, and truncate to 200
characters. -/
def sanitizeFilename (l : List Char) : List Char :=
  (trimJs (collapseWs (replaceInvalid l))).take 200

/-- `sanitizeFolderName` (folder resolver, INTEGRATION.md lines
447-454): additionally removes trailing dots before trimming. -/
def sanitizeFolderName (l : List Char) : List Char :=
  (trimJs (stripTrailingDots (collapseWs (replaceInvalid l)))).take 200

/-- The property C10 claims of both sanitizers. -/
def sanitizedOk (l : List Char) : Prop :=
  (∀ c ∈ l, c ∉ invalidFileChars) ∧
  l.Chain' (fun a b => ¬(isWs a = true ∧ isWs b = true)) ∧
  (∀ c, l.head? = some c → isWs c = false) ∧
  (∀ c, l.getLast? = some c → isWs c = false) ∧
  l.length ≤ 200

theorem mem_dropWhile (p : Char → Bool) (l : List Char) (a : Char)
    (h : a ∈ l.dropWhile p) : a ∈ l := by
  induction l with
  | nil => simp [List.dropWhile] at h
  | cons c cs ih =>
    rw [List.dropWhile_cons] at h
    by_cases hc : p c = true
    · rw [if_pos hc] at h
      exact List.mem_cons_of_mem _ (ih h)
    · rw [if_neg hc] at h
      exact h

theorem head?_dropWhile (p : Char → Bool) (l : List Char) (a : Char)
    (h : (l.dropWhile p).head? = some a) : p a = false := by
  induction l with
  | nil => simp [List.dropWhile] at h
  | cons c cs ih =>
    rw [List.dropWhile_cons] at h
    by_cases hc : p c = true
    · rw [if_pos hc] at h
      exact ih h
    · rw [if_neg hc] at h
      simp only [List.head?_cons, Option.some.injEq] at h
      subst h
      exact Bool.not_eq_true _ ▸ hc

theorem mem_collapseWsAux (l : List Char) : ∀ (b : Bool) (a : Char),
    a ∈ collapseWsAux b l → a = ' ' ∨ a ∈ l := by
  induction l with
  | nil => intro b a h; cases b <;> simp [collapseWsAux] at h
  | cons c cs ih =>
    intro b a h
    by_cases hc : isWs c = true
    · cases b with
      | true =>
        rw [collapseWsAux, if_pos hc] at h
        rcases ih true a h with h1 | h1
        · exact Or.inl h1
        · exact Or.inr (List.mem_cons_of_mem _ h1)
      | false =>
        rw [collapseWsAux, if_pos hc] at h
        rcases List.mem_cons.mp h with h1 | h1
        · exact Or.inl h1
        · rcases ih true a h1 with h2 | h2
          · exact Or.inl h2
          · exact Or.inr (List.mem_cons_of_mem _ h2)
    · have hcons : a ∈ c :: collapseWsAux false cs := by
        cases b with
        | true => rwa [collapseWsAux, if_neg hc] at h
        | false => rwa [collapseWsAux, if_neg hc] at h
      rcases List.mem_cons.mp hcons with h1 | h1
      · exact Or.inr (h1 ▸ List.mem_cons_self _ _)
      · rcases ih false a h1 with h2 | h2
        · exact Or.inl h2
        · exact Or.inr (List.mem_cons_of_mem _ h2)

theorem collapseWsAux_true_head (l : List Char) : ∀ a : Char,
    (collapseWsAux true l).head? = some a → isWs a = false := by
  induction l with
  | nil => intro a h; simp [collapseWsAux] at h
  | cons c cs ih =>
    intro a h
    by_cases hc : isWs c = true
    · rw [collapseWsAux, if_pos hc] at h
      exact ih a h
    · rw [collapseWsAux, if_neg hc] at h
      simp only [List.head?_cons, Option.some.injEq] at h
      subst h
      exact Bool.not_eq_true _ ▸ hc

theorem collapseWsAux_chain' (l : List Char) : ∀ b : Bool,
    (collapseWsAux b l).Chain' (fun x y => ¬(isWs x = true ∧ isWs y = true)) := by
  induction l with
  | nil => intro b; cases b <;> simp [collapseWsAux]
  | cons c cs ih =>
    intro b
    by_cases hc : isWs c = true
    · cases b with
      | true =>
        rw [collapseWsAux, if_pos hc]
        exact ih true
      | false =>
        rw [collapseWsAux, if_pos hc, List.chain'_cons']
        refine ⟨?_, ih true⟩
        intro y hy hcon
        rw [collapseWsAux_true_head cs y hy] at hcon
        exact Bool.false_ne_true hcon.2
    · cases b with
      | true =>
        rw [collapseWsAux, if_neg hc, List.chain'_cons']
        exact ⟨fun y _ hcon => hc hcon.1, ih false⟩
      | false =>
        rw [collapseWsAux, if_neg hc, List.chain'_cons']
        exact ⟨fun y _ hcon => hc hcon.1, ih false⟩

theorem chain'_append_left {R : Char → Char → Prop} (l₁ l₂ : List Char)
    (h : (l₁ ++ l₂).Chain' R) : l₁.Chain' R :=
  ((List.chain'_append.mp h).1)

/-- The right-trimmed list is a prefix of the original. -/
theorem trimRight_append (l : List Char) :
    l = trimRight l ++ (l.reverse.takeWhile isWs).reverse := by
  rw [trimRight, ← List.reverse_append, List.takeWhile_append_dropWhile,
    List.reverse_reverse]

theorem stripTrailingDots_append (l : List Char) :
    l = stripTrailingDots l ++ (l.reverse.takeWhile (fun c => c == '.')).reverse := by
  rw [stripTrailingDots, ← List.reverse_append, List.takeWhile_append_dropWhile,
    List.reverse_reverse]

theorem head?_of_prefix (z l₁ l₂ : List Char) (hz : z = l₁ ++ l₂) (c : Char)
    (hc : l₁.head? = some c) : z.head? = some c := by
  subst hz
  cases l₁ with
  | nil => simp at hc
  | cons x xs => simpa using hc

theorem head?_take (n : Nat) (l : List Char) (c : Char)
    (hc : (l.take n).head? = some c) : l.head? = some c := by
  cases l with
  | nil => simp at hc
  | cons x xs =>
    cases n with
    | zero => simp at hc
    | succ m => simpa using hc

theorem getLast?_trimRight (l : List Char) (c : Char)
    (hc : (trimRight l).getLast? = some c) : isWs c = false := by
  rw [trimRight, List.getLast?_reverse] at hc
  exact head?_dropWhile isWs l.reverse c hc

theorem mem_trimRight (l : List Char) (a : Char) (h : a ∈ trimRight l) : a ∈ l := by
  rw [trimRight, List.mem_reverse] at h
  have := mem_dropWhile isWs l.reverse a h
  rwa [List.mem_reverse] at this

theorem mem_stripTrailingDots (l : List Char) (a : Char)
    (h : a ∈ stripTrailingDots l) : a ∈ l := by
  rw [stripTrailingDots, List.mem_reverse] at h
  have := mem_dropWhile _ l.reverse a h
  rwa [List.mem_reverse] at this

theorem mem_trimJs (l : List Char) (a : Char) (h : a ∈ trimJs l) : a ∈ l :=
  mem_dropWhile isWs l a (mem_trimRight _ a h)

theorem replaceInvalid_no_invalid (l : List Char) (c : Char)
    (h : c ∈ replaceInvalid l) : c ∉ invalidFileChars := by
  rw [replaceInvalid, List.mem_map] at h
  obtain ⟨a, _, ha⟩ := h
  by_cases hmem : a ∈ invalidFileChars
  · rw [if_pos hmem] at ha
    subst ha
    decide
  · rw [if_neg hmem] at ha
    subst ha
    exact hmem

theorem chain'_trimLeft (l : List Char)
    (h : l.Chain' (fun a b => ¬(isWs a = true ∧ isWs b = true))) :
    (trimLeft l).Chain' (fun a b => ¬(isWs a = true ∧ isWs b = true)) := by
  have hsplit : l = l.takeWhile isWs ++ l.dropWhile isWs :=
    (List.takeWhile_append_dropWhile ..).symm
  rw [hsplit] at h
  exact ((List.chain'_append.mp h).2).1

theorem chain'_trimRight (l : List Char)
    (h : l.Chain' (fun a b => ¬(isWs a = true ∧ isWs b = true))) :
    (trimRight l).Chain' (fun a b => ¬(isWs a = true ∧ isWs b = true)) := by
  have hsplit := trimRight_append l
  rw [hsplit] at h
  exact chain'_append_left _ _ h

theorem chain'_stripTrailingDots (l : List Char)
    (h : l.Chain' (fun a b => ¬(isWs a = true ∧ isWs b = true))) :
    (stripTrailingDots l).Chain' (fun a b => ¬(isWs a = true ∧ isWs b = true)) := by
  have hsplit := stripTrailingDots_append l
  rw [hsplit] at h
  exact chain'_append_left _ _ h

theorem chain'_take (n : Nat) (l : List Char)
    (h : l.Chain' (fun a b => ¬(isWs a = true ∧ isWs b = true))) :
    (l.take n).Chain' (fun a b => ¬(isWs a = true ∧ isWs b = true)) := by
  have hsplit : l = l.take n ++ l.drop n := (List.take_append_drop ..).symm
  rw [hsplit] at h
  exact chain'_append_left _ _ h

theorem head?_trimJs_not_ws (l : List Char) (c : Char)
    (hc : (trimJs l).head? = some c) : isWs c = false := by
  rw [trimJs] at hc
  have h1 : (trimLeft l).head? = some c :=
    head?_of_prefix (trimLeft l) (trimRight (trimLeft l))
      ((trimLeft l).reverse.takeWhile isWs).reverse (trimRight_append _) c hc
  exact head?_dropWhile isWs l c h1

/-- C10 (amended), for both sanitizers: the result contains none of the
nine forbidden characters, has no two adjacent whitespace characters, no
leading whitespace, is at most 200 characters long, and has no trailing
whitespace whenever it is shorter than 200 characters (i.e. whenever the
200-character truncation did not cut the string). -/
theorem sanitize_filename_folder_properties (l : List Char) :
    ((∀ c ∈ sanitizeFilename l, c ∉ invalidFileChars) ∧
      (sanitizeFilename l).Chain' (fun a b => ¬(isWs a = true ∧ isWs b = true)) ∧
      (∀ c, (sanitizeFilename l).head? = some c → isWs c = false) ∧
      (sanitizeFilename l).length ≤ 200 ∧
      ((sanitizeFilename l).length < 200 →
        ∀ c, (sanitizeFilename l).getLast? = some c → isWs c = false)) ∧
    ((∀ c ∈ sanitizeFolderName l, c ∉ invalidFileChars) ∧
      (sanitizeFolderName l).Chain' (fun a b => ¬(isWs a = true ∧ isWs b = true)) ∧
      (∀ c, (sanitizeFolderName l).head? = some c → isWs c = false) ∧
      (sanitizeFolderName l).length ≤ 200 ∧
      ((sanitizeFolderName l).length < 200 →
        ∀ c, (sanitizeFolderName l).getLast? = some c → isWs c = false)) := by
  constructor
  · refine ⟨?_, ?_, ?_, ?_, ?_⟩
    · intro c hc
      rw [sanitizeFilename] at hc
      have h1 := List.take_subset _ _ hc
      have h2 := mem_trimJs _ c h1
      rcases mem_collapseWsAux _ false c h2 with h3 | h3
      · subst h3; decide
      · exact replaceInvalid_no_invalid l c h3
    · rw [sanitizeFilename]
      exact chain'_take _ _ (chain'_trimRight _ (chain'_trimLeft _
        (collapseWsAux_chain' _ false)))
    · intro c hc
      rw [sanitizeFilename] at hc
      exact head?_trimJs_not_ws _ c (head?_take _ _ c hc)
    · rw [sanitizeFilename]
      exact List.length_take_le ..
    · intro hlt c hc
      rw [sanitizeFilename] at hlt hc
      have hylt : (trimJs (collapseWs (replaceInvalid l))).length < 200 := by
        rw [List.length_take] at hlt
        omega
      rw [List.take_of_length_le (by omega)] at hc
      exact getLast?_trimRight _ c hc
  · refine ⟨?_, ?_, ?_, ?_, ?_⟩
    · intro c hc
      rw [sanitizeFolderName] at hc
      have h1 := List.take_subset _ _ hc
      have h2 := mem_trimJs _ c h1
      have h3 := mem_stripTrailingDots _ c h2
      rcases mem_collapseWsAux _ false c h3 with h4 | h4
      · subst h4; decide
      · exact replaceInvalid_no_invalid l c h4
    · rw [sanitizeFolderName]
      exact chain'_take _ _ (chain'_trimRight _ (chain'_trimLeft _
        (chain'_stripTrailingDots _ (collapseWsAux_chain' _ false))))
    · intro c hc
      rw [sanitizeFolderName] at hc
      exact head?_trimJs_not_ws _ c (head?_take _ _ c hc)
    · rw [sanitizeFolderName]
      exact List.length_take_le ..
    · intro hlt c hc
      rw [sanitizeFolderName] at hlt hc
      have hylt :
          (trimJs (stripTrailingDots (collapseWs (replaceInvalid l)))).length < 200 := by
        rw [List.length_take] at hlt
        omega
      rw [List.take_of_length_le (by omega)] at hc
      exact getLast?_trimRight _ c hc

/-- Witness for C10's conditional trailing-whitespace clause at a short
concrete input. -/
theorem sanitize_properties_witness :
    (∀ c, (sanitizeFilename ['a', ' ', 'b']).getLast? = some c → isWs c = false) ∧
    (sanitizeFilename ['a', ' ', 'b']).length ≤ 200 :=
  ⟨(sanitize_filename_folder_properties ['a', ' ', 'b']).1.2.2.2.2 (by decide),
   (sanitize_filename_folder_properties ['a', ' ', 'b']).1.2.2.2.1⟩

set_option maxRecDepth 4000 in
/-- Counterexample to C10 as stated: on 199 `'a'`s followed by `" b"`,
`sanitizeFilename` returns a 200-character string ending in a space - the
truncation cuts immediately after the space, so the "no trailing
whitespace" part of the claim fails. -/
theorem sanitizeFilename_trailing_space :
    (sanitizeFilename (List.replicate 199 'a' ++ [' ', 'b'])).length = 200 ∧
    (sanitizeFilename (List.replicate 199 'a' ++ [' ', 'b'])).getLast? = some ' ' ∧
    ¬ sanitizedOk (sanitizeFilename (List.replicate 199 'a' ++ [' ', 'b'])) := by
  refine ⟨by decide, by decide, ?_⟩
  intro hok
  have hlast : (sanitizeFilename (List.replicate 199 'a' ++ [' ', 'b'])).getLast?
      = some ' ' := by decide
  have := hok.2.2.2.1 ' ' hlast
  simp [isWs] at this

end Yhsrv
